import Mathlib

/-!
Verification of the chunk-forge parser service (src/parser): shallow embedding
of the caching layer (`cache.py`), the metadata enricher (`metadata.py`) and
the parse-configuration handling (`llama_parser.py`), together with theorems
settling the specification claims.

Machine-level conventions of the embedding:
* JSON / Python scalar values are modelled by `JVal` (the configuration and
  metadata dictionaries of this repository hold flat scalar values).
* Python dictionaries are modelled as association lists with first-occurrence
  lookup; assignment replaces in place (keeping position) or appends.
* The filesystem backing a cache directory is modelled as an association list
  from file name (cache key) to file content plus modification time; wall-clock
  time is a rational number.
* SHA-256 is modelled as an arbitrary function `hash : String → String`
  supplied as a parameter: every theorem proved here holds for every choice of
  the hash function, because the properties at stake depend only on equality
  of the hashed pre-images.
* Serialization (pickle for embeddings, JSON for chunk lists) is modelled by
  `SerFile`: a file either holds a faithfully serialized payload (`ok`) — the
  "supported payload shape" round-trip guarantee of pickle/json — or is a blob
  on which deserialization raises (`corrupt`).
-/

/-- JSON-style scalar value as found in the configuration and metadata
dictionaries of the source. -/
inductive JVal : Type
  | str (s : String)
  | int (n : Int)
  | jbool (b : Bool)
  | null
  deriving DecidableEq, Repr

/-- Minimal JSON string escaping (quote and backslash), as `json.dumps` does
for the plain ASCII strings appearing in this repository. -/
def jsonEscape (s : String) : String :=
  s.foldl (fun acc c =>
    if c = '"' then acc ++ "\\\"" else if c = '\\' then acc ++ "\\\\" else acc.push c) ""

/-- `json.dumps` of a scalar value. -/
def JVal.dumps : JVal → String
  | .str s => "\"" ++ jsonEscape s ++ "\""
  | .int n => toString n
  | .jbool b => if b then "true" else "false"
  | .null => "null"

/-- A Python dict of scalars: association list, first occurrence wins on
lookup. -/
abbrev ConfigDict := List (String × JVal)

/-- Python dict lookup (`d[k]` / `d.get(k)`): first matching key. -/
def dictGet {κ ν : Type} [DecidableEq κ] (m : List (κ × ν)) (k : κ) : Option ν :=
  match m with
  | [] => none
  | p :: r => if p.1 = k then some p.2 else dictGet r k

/-- Python dict assignment `d[k] = v`: replaces the value at an existing key
in place, else appends the new pair at the end (insertion order semantics). -/
def dictSet {κ ν : Type} [DecidableEq κ] (m : List (κ × ν)) (k : κ) (v : ν) :
    List (κ × ν) :=
  if m.any (fun p => decide (p.1 = k)) then
    m.map (fun p => if p.1 = k then (k, v) else p)
  else m ++ [(k, v)]

/-- `json.dumps(config, sort_keys=True)` rendering of one `"key": value`
pair. -/
def configPairDumps (p : String × JVal) : String :=
  "\"" ++ jsonEscape p.1 ++ "\": " ++ p.2.dumps

/-- Lexicographic comparison of code-point sequences: the string order
Python's `sorted` uses on dict keys. -/
def charListLe : List Char → List Char → Bool
  | [], _ => true
  | _ :: _, [] => false
  | a :: as, b :: bs =>
      if a.toNat < b.toNat then true
      else if b.toNat < a.toNat then false
      else charListLe as bs

/-- Key order on dict entries. -/
def keyLe (a b : String × JVal) : Prop :=
  charListLe a.1.toList b.1.toList = true

instance : DecidableRel keyLe := fun a b => Bool.decEq _ _

/-- The sorted-key ordering used by `json.dumps(..., sort_keys=True)`. -/
def sortByKey (l : ConfigDict) : ConfigDict :=
  l.insertionSort keyLe

/-- `json.dumps(config, sort_keys=True)`: canonical serialization of a flat
configuration dict with keys sorted (source: `cache.py` lines 161 and 287). -/
def jsonDumpsSorted (config : ConfigDict) : String :=
  "\x7b" ++ String.intercalate ", " ((sortByKey config).map configPairDumps) ++ "\x7d"

/-- `EmbeddingCache._get_cache_key` (cache.py:32-44): hash of
`f"{text}:{model}"`. -/
def embeddingCacheKey (hash : String → String) (text model : String) : String :=
  hash (text ++ ":" ++ model)

/-- `ChunkResultCache._get_cache_key` (cache.py:143-163): hash of
`f"{text_hash}:{strategy}:{config_str}"` with canonical config. -/
def chunkCacheKey (hash : String → String) (textHash strategy : String)
    (config : ConfigDict) : String :=
  hash (textHash ++ ":" ++ strategy ++ ":" ++ jsonDumpsSorted config)

/-- `ParseResultCache._get_cache_key` (cache.py:269-289): hash of
`f"{file_hash}:{parser_method}:{config_str}"` with canonical config. -/
def parseCacheKey (hash : String → String) (fileHash : String) (config : ConfigDict)
    (parserMethod : String) : String :=
  hash (fileHash ++ ":" ++ parserMethod ++ ":" ++ jsonDumpsSorted config)

/-- One cache entry file on disk: content plus modification time
(`st_mtime`). -/
structure CacheFile (γ : Type) where
  content : γ
  mtime : ℚ
  deriving DecidableEq

/-- The cache directory: file name (hex key) to file. -/
abbrev Store (γ : Type) := List (String × CacheFile γ)

/-- `path.exists()` plus read: find the file named `k`. -/
def Store.find {γ : Type} (s : Store γ) (k : String) : Option (CacheFile γ) :=
  match s with
  | [] => none
  | (k2, f) :: rest => if k2 = k then some f else Store.find rest k

/-- `cache_file.unlink()`: delete the file named `k`. -/
def Store.erase {γ : Type} (s : Store γ) (k : String) : Store γ :=
  match s with
  | [] => []
  | (k2, f) :: rest =>
      if k2 = k then Store.erase rest k else (k2, f) :: Store.erase rest k

/-- Writing (creating or overwriting) the file named `k`. -/
def Store.write {γ : Type} (s : Store γ) (k : String) (f : CacheFile γ) : Store γ :=
  (k, f) :: Store.erase s k

/-- Content of a pickle/JSON cache entry file: either a faithfully serialized
payload, or bytes on which deserialization raises. -/
inductive SerFile (α : Type) : Type
  | ok (a : α)
  | corrupt
  deriving DecidableEq

/-- Result of a cache `get`: returned value, resulting directory state, and
whether an `"Error loading cache"` diagnostic was printed. -/
structure GetOut (α γ : Type) where
  result : Option α
  store : Store γ
  errLogged : Bool
  deriving DecidableEq

namespace EmbeddingCache

/-- `EmbeddingCache.get` (cache.py:50-79): key lookup, TTL check with eager
deletion (`file_age > self.ttl`), then `pickle.load` with exceptions mapped
to a logged `None`. -/
def get {α : Type} (hash : String → String) (ttl : ℕ) (s : Store (SerFile α))
    (text model : String) (now : ℚ) : GetOut α (SerFile α) :=
  let key := embeddingCacheKey hash text model
  match s.find key with
  | none => ⟨none, s, false⟩
  | some f =>
      if (ttl : ℚ) < now - f.mtime then ⟨none, s.erase key, false⟩
      else
        match f.content with
        | .ok a => ⟨some a, s, false⟩
        | .corrupt => ⟨none, s, true⟩

/-- `EmbeddingCache.set` (cache.py:81-97), successful-write path: serialize
the embedding into the key's file. -/
def set {α : Type} (hash : String → String) (s : Store (SerFile α))
    (text model : String) (embedding : α) (now : ℚ) : Store (SerFile α) :=
  s.write (embeddingCacheKey hash text model) ⟨SerFile.ok embedding, now⟩

end EmbeddingCache

namespace ChunkResultCache

/-- `ChunkResultCache.get` (cache.py:173-208): same file-cache pattern, keyed
by (hash of text, strategy, canonical config), JSON payload. -/
def get {α : Type} (hash : String → String) (ttl : ℕ) (s : Store (SerFile α))
    (text strategy : String) (config : ConfigDict) (now : ℚ) : GetOut α (SerFile α) :=
  let key := chunkCacheKey hash (hash text) strategy config
  match s.find key with
  | none => ⟨none, s, false⟩
  | some f =>
      if (ttl : ℚ) < now - f.mtime then ⟨none, s.erase key, false⟩
      else
        match f.content with
        | .ok a => ⟨some a, s, false⟩
        | .corrupt => ⟨none, s, true⟩

/-- `ChunkResultCache.set` (cache.py:210-234), successful-write path. -/
def set {α : Type} (hash : String → String) (s : Store (SerFile α))
    (text strategy : String) (config : ConfigDict) (chunks : α) (now : ℚ) :
    Store (SerFile α) :=
  s.write (chunkCacheKey hash (hash text) strategy config) ⟨SerFile.ok chunks, now⟩

end ChunkResultCache

/-- The JSON object `ParseResultCache.set` writes (cache.py:351-357).
`markdown` is optional because `get` reads it back with `data.get('markdown')`,
which tolerates a missing key. -/
structure ParseCacheData where
  file_hash : String
  config : ConfigDict
  markdown : Option String
  parser_method : String
  timestamp : ℚ
  deriving DecidableEq

/-- Content of a parse-result cache file: a JSON object or corrupt bytes. -/
inductive ParseFileContent : Type
  | ok (d : ParseCacheData)
  | corrupt
  deriving DecidableEq

namespace ParseResultCache

/-- `ParseResultCache.get` (cache.py:295-330): file-cache pattern; on a live
entry returns `data.get('markdown')`; `json.load` failure is logged and maps
to `None` with the file left in place. -/
def get (hash : String → String) (ttl : ℕ) (s : Store ParseFileContent)
    (fileHash : String) (config : ConfigDict) (parserMethod : String) (now : ℚ) :
    GetOut String ParseFileContent :=
  let key := parseCacheKey hash fileHash config parserMethod
  match s.find key with
  | none => ⟨none, s, false⟩
  | some f =>
      if (ttl : ℚ) < now - f.mtime then ⟨none, s.erase key, false⟩
      else
        match f.content with
        | .ok d => ⟨d.markdown, s, false⟩
        | .corrupt => ⟨none, s, true⟩

/-- `ParseResultCache.set` (cache.py:332-363), successful-write path: writes
the JSON object with the markdown and bookkeeping fields. -/
def set (hash : String → String) (s : Store ParseFileContent) (fileHash : String)
    (config : ConfigDict) (markdown : String) (parserMethod : String) (now : ℚ) :
    Store ParseFileContent :=
  s.write (parseCacheKey hash fileHash config parserMethod)
    ⟨ParseFileContent.ok ⟨fileHash, config, some markdown, parserMethod, now⟩, now⟩

end ParseResultCache

/-! Basic store lemmas. -/

theorem Store.find_write_self {γ : Type} (s : Store γ) (k : String) (f : CacheFile γ) :
    (s.write k f).find k = some f := by
  simp [Store.write, Store.find]

theorem Store.find_erase_self {γ : Type} (s : Store γ) (k : String) :
    (s.erase k).find k = none := by
  induction s with
  | nil => rfl
  | cons p rest ih =>
      obtain ⟨k2, f⟩ := p
      by_cases h : k2 = k <;> simp [Store.erase, h, Store.find, ih]

theorem Store.find_cons_self {γ : Type} (rest : Store γ) (k : String) (f : CacheFile γ) :
    Store.find ((k, f) :: rest) k = some f := by
  simp [Store.find]

/-- C1: Cache round-trip. For each of the three cache namespaces, a `set`
followed by a `get` with the same lookup inputs — the elapsed time not
exceeding the namespace TTL, along the successful-write path — returns the
stored payload; for the parse-result namespace the returned value is the
stored markdown string. -/
theorem cache_set_get_roundtrip {α : Type} (hash : String → String) (ttl : ℕ)
    (s₁ s₂ : Store (SerFile α)) (s₃ : Store ParseFileContent)
    (text model strategy fileHash parserMethod markdown : String)
    (config : ConfigDict) (payload chunks : α) (t0 t1 : ℚ)
    (h : t1 - t0 ≤ (ttl : ℚ)) :
    (EmbeddingCache.get hash ttl (EmbeddingCache.set hash s₁ text model payload t0)
        text model t1).result = some payload ∧
    (ChunkResultCache.get hash ttl
        (ChunkResultCache.set hash s₂ text strategy config chunks t0)
        text strategy config t1).result = some chunks ∧
    (ParseResultCache.get hash ttl
        (ParseResultCache.set hash s₃ fileHash config markdown parserMethod t0)
        fileHash config parserMethod t1).result = some markdown := by
  refine ⟨?_, ?_, ?_⟩ <;>
    simp [EmbeddingCache.get, EmbeddingCache.set, ChunkResultCache.get,
      ChunkResultCache.set, ParseResultCache.get, ParseResultCache.set,
      Store.write, Store.find_cons_self, not_lt.mpr h]

theorem cache_set_get_roundtrip_witness :
    ((1 : ℚ) - 0 ≤ ((5 : ℕ) : ℚ)) ∧
    ((EmbeddingCache.get id 5 (EmbeddingCache.set id ([] : Store (SerFile ℕ))
        "text" "model" 42 0) "text" "model" 1).result = some 42 ∧
      (ChunkResultCache.get id 5 (ChunkResultCache.set id ([] : Store (SerFile ℕ))
        "text" "semantic" [("a", JVal.int 1)] 7 0)
        "text" "semantic" [("a", JVal.int 1)] 1).result = some 7 ∧
      (ParseResultCache.get id 5 (ParseResultCache.set id ([] : Store ParseFileContent)
        "fh" [("a", JVal.int 1)] "md" "llamaparse" 0)
        "fh" [("a", JVal.int 1)] "llamaparse" 1).result = some "md") :=
  ⟨by norm_num,
    cache_set_get_roundtrip id 5 [] [] [] "text" "model" "semantic" "fh"
      "llamaparse" "md" [("a", JVal.int 1)] 42 7 0 1 (by norm_num)⟩

/-- C2: TTL expiry. For each namespace: an entry written at `t0` and read at
`t1` with `t1 - t0` strictly above the TTL yields an empty result and the
entry file is deleted; with `t1 - t0` at or below the TTL the stored value is
returned and the directory state is untouched. -/
theorem cache_ttl_expiry {α : Type} (hash : String → String) (ttl : ℕ)
    (s₁ s₂ : Store (SerFile α)) (s₃ : Store ParseFileContent)
    (text model strategy fileHash parserMethod markdown : String)
    (config : ConfigDict) (payload chunks : α) (t0 t1 : ℚ) :
    ((ttl : ℚ) < t1 - t0 →
      (EmbeddingCache.get hash ttl (EmbeddingCache.set hash s₁ text model payload t0)
          text model t1).result = none ∧
      (EmbeddingCache.get hash ttl (EmbeddingCache.set hash s₁ text model payload t0)
          text model t1).store.find (embeddingCacheKey hash text model) = none ∧
      (ChunkResultCache.get hash ttl
          (ChunkResultCache.set hash s₂ text strategy config chunks t0)
          text strategy config t1).result = none ∧
      (ChunkResultCache.get hash ttl
          (ChunkResultCache.set hash s₂ text strategy config chunks t0)
          text strategy config t1).store.find
          (chunkCacheKey hash (hash text) strategy config) = none ∧
      (ParseResultCache.get hash ttl
          (ParseResultCache.set hash s₃ fileHash config markdown parserMethod t0)
          fileHash config parserMethod t1).result = none ∧
      (ParseResultCache.get hash ttl
          (ParseResultCache.set hash s₃ fileHash config markdown parserMethod t0)
          fileHash config parserMethod t1).store.find
          (parseCacheKey hash fileHash config parserMethod) = none) ∧
    (t1 - t0 ≤ (ttl : ℚ) →
      (EmbeddingCache.get hash ttl (EmbeddingCache.set hash s₁ text model payload t0)
          text model t1) =
        ⟨some payload, EmbeddingCache.set hash s₁ text model payload t0, false⟩ ∧
      (ChunkResultCache.get hash ttl
          (ChunkResultCache.set hash s₂ text strategy config chunks t0)
          text strategy config t1) =
        ⟨some chunks, ChunkResultCache.set hash s₂ text strategy config chunks t0,
          false⟩ ∧
      (ParseResultCache.get hash ttl
          (ParseResultCache.set hash s₃ fileHash config markdown parserMethod t0)
          fileHash config parserMethod t1) =
        ⟨some markdown,
          ParseResultCache.set hash s₃ fileHash config markdown parserMethod t0,
          false⟩) := by
  constructor
  · intro hx
    refine ⟨?_, ?_, ?_, ?_, ?_, ?_⟩ <;>
      simp [EmbeddingCache.get, EmbeddingCache.set, ChunkResultCache.get,
        ChunkResultCache.set, ParseResultCache.get, ParseResultCache.set,
        Store.write, Store.find_cons_self, hx, Store.erase, Store.find_erase_self]
  · intro h
    refine ⟨?_, ?_, ?_⟩ <;>
      simp [EmbeddingCache.get, EmbeddingCache.set, ChunkResultCache.get,
        ChunkResultCache.set, ParseResultCache.get, ParseResultCache.set,
        Store.write, Store.find_cons_self, not_lt.mpr h]

theorem cache_ttl_expiry_witness :
    (((1 : ℕ) : ℚ) < 3 - 0 ∧
      (EmbeddingCache.get id 1 (EmbeddingCache.set id ([] : Store (SerFile ℕ))
          "t" "m" 9 0) "t" "m" 3).result = none ∧
      (EmbeddingCache.get id 1 (EmbeddingCache.set id ([] : Store (SerFile ℕ))
          "t" "m" 9 0) "t" "m" 3).store.find (embeddingCacheKey id "t" "m") = none) ∧
    ((1 : ℚ) - 0 ≤ ((1 : ℕ) : ℚ) ∧
      (EmbeddingCache.get id 1 (EmbeddingCache.set id ([] : Store (SerFile ℕ))
          "t" "m" 9 0) "t" "m" 1) =
        ⟨some 9, EmbeddingCache.set id [] "t" "m" 9 0, false⟩) := by
  have h := cache_ttl_expiry (α := ℕ) id 1 [] [] [] "t" "m" "semantic" "fh"
    "llamaparse" "md" [] 9 9 0 3
  have h2 := cache_ttl_expiry (α := ℕ) id 1 [] [] [] "t" "m" "semantic" "fh"
    "llamaparse" "md" [] 9 9 0 1
  refine ⟨⟨by norm_num, ?_, ?_⟩, ⟨by norm_num, ?_⟩⟩
  · exact (h.1 (by norm_num)).1
  · exact (h.1 (by norm_num)).2.1
  · exact (h2.2 (by norm_num)).1

/-- C5: Corrupt-entry handling. For each namespace, when the entry file for
the computed key exists and is not expired but deserialization of its
contents fails, `get` returns empty, logs a diagnostic, and leaves the
directory state (including the corrupt file) unchanged. -/
theorem cache_corrupt_entry {α : Type} (hash : String → String) (ttl : ℕ)
    (s₁ s₂ : Store (SerFile α)) (s₃ : Store ParseFileContent)
    (text model strategy fileHash parserMethod : String) (config : ConfigDict)
    (t0 t0' t0'' t1 : ℚ)
    (h1 : s₁.find (embeddingCacheKey hash text model) = some ⟨SerFile.corrupt, t0⟩)
    (h2 : s₂.find (chunkCacheKey hash (hash text) strategy config) =
      some ⟨SerFile.corrupt, t0'⟩)
    (h3 : s₃.find (parseCacheKey hash fileHash config parserMethod) =
      some ⟨ParseFileContent.corrupt, t0''⟩)
    (ht1 : t1 - t0 ≤ (ttl : ℚ)) (ht2 : t1 - t0' ≤ (ttl : ℚ))
    (ht3 : t1 - t0'' ≤ (ttl : ℚ)) :
    EmbeddingCache.get hash ttl s₁ text model t1 = ⟨none, s₁, true⟩ ∧
    ChunkResultCache.get hash ttl s₂ text strategy config t1 = ⟨none, s₂, true⟩ ∧
    ParseResultCache.get hash ttl s₃ fileHash config parserMethod t1 =
      ⟨none, s₃, true⟩ := by
  refine ⟨?_, ?_, ?_⟩
  · simp [EmbeddingCache.get, h1, not_lt.mpr ht1]
  · simp [ChunkResultCache.get, h2, not_lt.mpr ht2]
  · simp [ParseResultCache.get, h3, not_lt.mpr ht3]

theorem cache_corrupt_entry_witness :
    (Store.find [(embeddingCacheKey id "t" "m",
        (⟨SerFile.corrupt, 0⟩ : CacheFile (SerFile ℕ)))]
        (embeddingCacheKey id "t" "m") = some ⟨SerFile.corrupt, 0⟩) ∧
    ((1 : ℚ) - 0 ≤ ((5 : ℕ) : ℚ)) ∧
    EmbeddingCache.get id 5
        [(embeddingCacheKey id "t" "m",
          (⟨SerFile.corrupt, 0⟩ : CacheFile (SerFile ℕ)))] "t" "m" 1 =
      ⟨none, [(embeddingCacheKey id "t" "m", ⟨SerFile.corrupt, 0⟩)], true⟩ :=
  ⟨by simp [Store.find], by norm_num,
    (cache_corrupt_entry (α := ℕ) id 5
      [(embeddingCacheKey id "t" "m", ⟨SerFile.corrupt, 0⟩)]
      [(chunkCacheKey id (id "t") "s" [], ⟨SerFile.corrupt, 0⟩)]
      [(parseCacheKey id "fh" [] "llamaparse", ⟨ParseFileContent.corrupt, 0⟩)]
      "t" "m" "s" "fh" "llamaparse" [] 0 0 0 1
      (by simp [Store.find]) (by simp [Store.find]) (by simp [Store.find])
      (by norm_num) (by norm_num) (by norm_num)).1⟩

/-- C8: Zero TTL. With a namespace TTL of `0`, any `get` strictly after the
write finds the entry expired: it returns empty and deletes the entry file,
in all three namespaces. -/
theorem cache_zero_ttl {α : Type} (hash : String → String)
    (s₁ s₂ : Store (SerFile α)) (s₃ : Store ParseFileContent)
    (text model strategy fileHash parserMethod markdown : String)
    (config : ConfigDict) (payload chunks : α) (t0 t1 : ℚ) (h : t0 < t1) :
    (EmbeddingCache.get hash 0 (EmbeddingCache.set hash s₁ text model payload t0)
        text model t1).result = none ∧
    (EmbeddingCache.get hash 0 (EmbeddingCache.set hash s₁ text model payload t0)
        text model t1).store.find (embeddingCacheKey hash text model) = none ∧
    (ChunkResultCache.get hash 0
        (ChunkResultCache.set hash s₂ text strategy config chunks t0)
        text strategy config t1).result = none ∧
    (ChunkResultCache.get hash 0
        (ChunkResultCache.set hash s₂ text strategy config chunks t0)
        text strategy config t1).store.find
        (chunkCacheKey hash (hash text) strategy config) = none ∧
    (ParseResultCache.get hash 0
        (ParseResultCache.set hash s₃ fileHash config markdown parserMethod t0)
        fileHash config parserMethod t1).result = none ∧
    (ParseResultCache.get hash 0
        (ParseResultCache.set hash s₃ fileHash config markdown parserMethod t0)
        fileHash config parserMethod t1).store.find
        (parseCacheKey hash fileHash config parserMethod) = none := by
  have hx : ((0 : ℕ) : ℚ) < t1 - t0 := by push_cast; linarith
  exact (cache_ttl_expiry hash 0 s₁ s₂ s₃ text model strategy fileHash parserMethod
    markdown config payload chunks t0 t1).1 hx

theorem cache_zero_ttl_witness :
    ((0 : ℚ) < 1) ∧
    (EmbeddingCache.get id 0 (EmbeddingCache.set id ([] : Store (SerFile ℕ))
        "t" "m" 3 0) "t" "m" 1).result = none ∧
    (EmbeddingCache.get id 0 (EmbeddingCache.set id ([] : Store (SerFile ℕ))
        "t" "m" 3 0) "t" "m" 1).store.find (embeddingCacheKey id "t" "m") = none :=
  ⟨by norm_num,
    (cache_zero_ttl id ([] : Store (SerFile ℕ)) [] [] "t" "m" "s" "fh"
      "llamaparse" "md" [] 3 3 0 1 (by norm_num)).1,
    (cache_zero_ttl id ([] : Store (SerFile ℕ)) [] [] "t" "m" "s" "fh"
      "llamaparse" "md" [] 3 3 0 1 (by norm_num)).2.1⟩

/-- C10: Embedding cache key collision. The distinct input pairs
`("a:b", "c")` and `("a", "b:c")` hash the same `text + ":" + model` content,
so they share a cache key for every hash function, and a `set` under one pair
is returned by a `get` under the other. -/
theorem embedding_key_collision {α : Type} (hash : String → String)
    (s : Store (SerFile α)) (emb : α) :
    embeddingCacheKey hash "a:b" "c" = embeddingCacheKey hash "a" "b:c" ∧
    (("a:b", "c") ≠ (("a", "b:c") : String × String)) ∧
    (EmbeddingCache.get hash 0 (EmbeddingCache.set hash s "a" "b:c" emb 0)
        "a:b" "c" 0).result = some emb := by
  have hkey : ("a:b" ++ ":" ++ "c" : String) = "a" ++ ":" ++ "b:c" := rfl
  refine ⟨by simp [embeddingCacheKey, hkey], by decide, ?_⟩
  simp [EmbeddingCache.get, EmbeddingCache.set, embeddingCacheKey, hkey,
    Store.write, Store.find_cons_self]

/-- `charListLe` is total. -/
theorem charListLe_total : ∀ a b : List Char,
    charListLe a b = true ∨ charListLe b a = true
  | [], _ => Or.inl rfl
  | _ :: _, [] => Or.inr rfl
  | a :: as, b :: bs => by
      rcases Nat.lt_trichotomy a.toNat b.toNat with h | h | h
      · left; simp [charListLe, h]
      · have h1 : ¬ a.toNat < b.toNat := by omega
        have h2 : ¬ b.toNat < a.toNat := by omega
        rcases charListLe_total as bs with ih | ih
        · left; simp [charListLe, h1, h2, ih]
        · right; simp [charListLe, h1, h2, ih]
      · right; simp [charListLe, h]

/-- `charListLe` is transitive. -/
theorem charListLe_trans : ∀ a b c : List Char,
    charListLe a b = true → charListLe b c = true → charListLe a c = true
  | [], _, _, _, _ => rfl
  | _ :: _, [], _, h1, _ => by simp [charListLe] at h1
  | _ :: _, _ :: _, [], _, h2 => by simp [charListLe] at h2
  | a :: as, b :: bs, c :: cs, h1, h2 => by
      by_cases hab : a.toNat < b.toNat <;> by_cases hbc : b.toNat < c.toNat <;>
        by_cases hba : b.toNat < a.toNat <;> by_cases hcb : c.toNat < b.toNat <;>
        simp [charListLe, hab, hbc, hba, hcb] at h1 h2 ⊢ <;>
        first
          | omega
          | (constructor <;> omega)
          | exact charListLe_trans as bs cs h1 h2
          | exact ⟨by omega, charListLe_trans as bs cs h1 h2⟩
          | (have hac : ¬ a.toNat < c.toNat := by omega
             have hca : ¬ c.toNat < a.toNat := by omega
             simp [hac, hca]
             first
               | exact charListLe_trans as bs cs h1 h2
               | exact ⟨by omega, charListLe_trans as bs cs h1 h2⟩)

/-- `charListLe` is antisymmetric. -/
theorem charListLe_antisymm : ∀ a b : List Char,
    charListLe a b = true → charListLe b a = true → a = b
  | [], [], _, _ => rfl
  | _ :: _, [], h1, _ => by simp [charListLe] at h1
  | [], _ :: _, _, h2 => by simp [charListLe] at h2
  | a :: as, b :: bs, h1, h2 => by
      by_cases hab : a.toNat < b.toNat <;> by_cases hba : b.toNat < a.toNat <;>
        simp [charListLe, hab, hba] at h1 h2
      · omega
      · have hn : a.toNat = b.toNat := by omega
        have hc : a = b := by
          apply Char.eq_of_val_eq
          apply UInt32.eq_of_toBitVec_eq
          exact BitVec.eq_of_toNat_eq hn
        rw [hc, charListLe_antisymm as bs h1 h2]

/-- Sorting by key is invariant under reordering of a duplicate-free dict. -/
theorem sortByKey_perm_eq (c1 c2 : ConfigDict) (hperm : c1.Perm c2)
    (hnd : (c1.map Prod.fst).Nodup) : sortByKey c1 = sortByKey c2 := by
  have p1 := List.perm_insertionSort keyLe c1
  have p2 := List.perm_insertionSort keyLe c2
  have p : List.Perm (sortByKey c1) (sortByKey c2) := (p1.trans hperm).trans p2.symm
  have hnd2 : (c2.map Prod.fst).Nodup := (hperm.map Prod.fst).nodup_iff.mp hnd
  haveI : IsTotal (String × JVal) keyLe := ⟨fun a b => charListLe_total _ _⟩
  haveI : IsTrans (String × JVal) keyLe :=
    ⟨fun _ _ _ h1 h2 => charListLe_trans _ _ _ h1 h2⟩
  have hs1 : List.Sorted keyLe (sortByKey c1) := List.sorted_insertionSort keyLe c1
  have hs2 : List.Sorted keyLe (sortByKey c2) := List.sorted_insertionSort keyLe c2
  have hne1 : List.Pairwise (fun a b : String × JVal => a.1 ≠ b.1) (sortByKey c1) := by
    have : ((sortByKey c1).map Prod.fst).Nodup :=
      ((p1.map Prod.fst).nodup_iff).mpr hnd
    exact (List.pairwise_map).mp this
  have hne2 : List.Pairwise (fun a b : String × JVal => a.1 ≠ b.1) (sortByKey c2) := by
    have : ((sortByKey c2).map Prod.fst).Nodup :=
      ((p2.map Prod.fst).nodup_iff).mpr hnd2
    exact (List.pairwise_map).mp this
  have hlt1 : List.Pairwise (fun a b : String × JVal => keyLe a b ∧ a.1 ≠ b.1)
      (sortByKey c1) := hs1.and hne1
  have hlt2 : List.Pairwise (fun a b : String × JVal => keyLe a b ∧ a.1 ≠ b.1)
      (sortByKey c2) := hs2.and hne2
  haveI : IsAntisymm (String × JVal) (fun a b => keyLe a b ∧ a.1 ≠ b.1) := by
    refine ⟨fun a b h1 h2 => absurd ?_ h1.2⟩
    have := charListLe_antisymm _ _ h1.1 h2.1
    exact String.toList_inj.mp this
  exact List.eq_of_perm_of_sorted p hlt1 hlt2

/-- C4: Cache-key canonicalization. Two configuration dicts that are equal as
mappings but listed in different orders (a permutation, with no duplicate
keys) produce identical chunk-result and parse-result cache keys, because the
configuration is serialized with sorted keys before hashing. -/
theorem cache_key_canonicalization (hash : String → String)
    (textHash strategy fileHash parserMethod : String) (c1 c2 : ConfigDict)
    (hperm : c1.Perm c2) (hnd : (c1.map Prod.fst).Nodup) :
    chunkCacheKey hash textHash strategy c1 = chunkCacheKey hash textHash strategy c2 ∧
    parseCacheKey hash fileHash c1 parserMethod =
      parseCacheKey hash fileHash c2 parserMethod := by
  have h : jsonDumpsSorted c1 = jsonDumpsSorted c2 := by
    rw [jsonDumpsSorted, jsonDumpsSorted, sortByKey_perm_eq c1 c2 hperm hnd]
  exact ⟨by rw [chunkCacheKey, chunkCacheKey, h], by rw [parseCacheKey, parseCacheKey, h]⟩

theorem cache_key_canonicalization_witness :
    (([("a", JVal.int 1), ("b", JVal.int 2)] : ConfigDict).Perm
        [("b", JVal.int 2), ("a", JVal.int 1)] ∧
      (([("a", JVal.int 1), ("b", JVal.int 2)] : ConfigDict).map Prod.fst).Nodup) ∧
    chunkCacheKey id "th" "semantic" [("a", JVal.int 1), ("b", JVal.int 2)] =
      chunkCacheKey id "th" "semantic" [("b", JVal.int 2), ("a", JVal.int 1)] ∧
    parseCacheKey id "fh" [("a", JVal.int 1), ("b", JVal.int 2)] "llamaparse" =
      parseCacheKey id "fh" [("b", JVal.int 2), ("a", JVal.int 1)] "llamaparse" :=
  ⟨⟨by decide, by decide⟩,
    cache_key_canonicalization id "th" "semantic" "fh" "llamaparse"
      [("a", JVal.int 1), ("b", JVal.int 2)] [("b", JVal.int 2), ("a", JVal.int 1)]
      (by decide) (by decide)⟩

/-- `ParseConfig` (llama_parser.py:40-69): the validated configuration for
LlamaParse, with its defaults. -/
structure ParseConfig where
  language : String
  disable_ocr : Bool
  skip_diagonal_text : Bool
  target_pages : Option String
  page_separator : String
  output_tables_as_HTML : Bool
  preserve_layout_alignment_across_pages : Bool
  hide_headers : Bool
  hide_footers : Bool
  deriving DecidableEq

/-- `DEFAULT_PARSE_CONFIG = ParseConfig().model_dump()` (llama_parser.py:73),
as the validated record. -/
def defaultParseConfig : ParseConfig :=
  ⟨"en", false, false, none, "\n---\n", false, false, false, false⟩

/-- The field names `ParseConfig` accepts; any other key is rejected by
`extra = "forbid"` (llama_parser.py:68-69). -/
def parseConfigFieldNames : List String :=
  ["language", "disable_ocr", "skip_diagonal_text", "target_pages",
   "page_separator", "output_tables_as_HTML",
   "preserve_layout_alignment_across_pages", "hide_headers", "hide_footers"]

/-- Read a string field: absent gives the default, a string validates, any
other value fails validation. -/
def cfgStr (cfg : ConfigDict) (name dflt : String) : Option String :=
  match dictGet cfg name with
  | none => some dflt
  | some (JVal.str s) => some s
  | some _ => none

/-- Read a boolean field: absent gives the default, a boolean validates, any
other value fails validation. -/
def cfgBool (cfg : ConfigDict) (name : String) (dflt : Bool) : Option Bool :=
  match dictGet cfg name with
  | none => some dflt
  | some (JVal.jbool b) => some b
  | some _ => none

/-- Read an optional string field (`target_pages`): absent gives the default,
`null` or a string validates, any other value fails validation. -/
def cfgOptStr (cfg : ConfigDict) (name : String) (dflt : Option String) :
    Option (Option String) :=
  match dictGet cfg name with
  | none => some dflt
  | some JVal.null => some none
  | some (JVal.str s) => some (some s)
  | some _ => none

/-- `ParseConfig(**config)` validation: unknown keys are rejected
(`extra = "forbid"`), each known field must carry a value of its declared
type, and absent fields take their defaults. -/
def validateParseConfig (cfg : ConfigDict) : Option ParseConfig :=
  if cfg.all (fun p => parseConfigFieldNames.contains p.1) then do
    let language ← cfgStr cfg "language" "en"
    let disable_ocr ← cfgBool cfg "disable_ocr" false
    let skip_diagonal_text ← cfgBool cfg "skip_diagonal_text" false
    let target_pages ← cfgOptStr cfg "target_pages" none
    let page_separator ← cfgStr cfg "page_separator" "\n---\n"
    let output_tables_as_HTML ← cfgBool cfg "output_tables_as_HTML" false
    let preserve ← cfgBool cfg "preserve_layout_alignment_across_pages" false
    let hide_headers ← cfgBool cfg "hide_headers" false
    let hide_footers ← cfgBool cfg "hide_footers" false
    pure ⟨language, disable_ocr, skip_diagonal_text, target_pages, page_separator,
      output_tables_as_HTML, preserve, hide_headers, hide_footers⟩
  else none

/-- `ParseConfig.model_dump()`: the configuration as a dict in field
declaration order. -/
def ParseConfig.model_dump (c : ParseConfig) : ConfigDict :=
  [("language", JVal.str c.language),
   ("disable_ocr", JVal.jbool c.disable_ocr),
   ("skip_diagonal_text", JVal.jbool c.skip_diagonal_text),
   ("target_pages", match c.target_pages with
     | none => JVal.null
     | some s => JVal.str s),
   ("page_separator", JVal.str c.page_separator),
   ("output_tables_as_HTML", JVal.jbool c.output_tables_as_HTML),
   ("preserve_layout_alignment_across_pages",
     JVal.jbool c.preserve_layout_alignment_across_pages),
   ("hide_headers", JVal.jbool c.hide_headers),
   ("hide_footers", JVal.jbool c.hide_footers)]

/-- Config resolution in `parse_pdf` (llama_parser.py:122-132): `None` means
the defaults; a supplied config is validated and dumped, and on any
validation failure the entire supplied config is discarded in favour of the
defaults. -/
def resolveParseConfig : Option ConfigDict → ConfigDict
  | none => defaultParseConfig.model_dump
  | some c =>
      match validateParseConfig c with
      | some pc => pc.model_dump
      | none => defaultParseConfig.model_dump

/-- `ParseResult` (llama_parser.py:16-19). -/
structure ParseResult where
  markdown : String
  page_count : ℕ
  deriving DecidableEq

/-- Outcome of `parse_pdf`: the returned `ParseResult` and the resulting
parse-cache directory state. -/
structure ParsePdfOut where
  result : ParseResult
  store : Store ParseFileContent
  deriving DecidableEq

/-- `parse_pdf` (llama_parser.py:93-169) after the API-key check: resolve the
configuration, look up the parse cache under the resolved config, return the
hit, or invoke the engine (modelled as the markdown `engineMd` it would
produce for this file) and cache the result. `pageCount` is the PyPDF2 page
count, an external input. -/
def parse_pdf (hash : String → String) (engineMd : String) (ttl : ℕ)
    (s : Store ParseFileContent) (fileHash : String) (pageCount : ℕ)
    (config : Option ConfigDict) (now : ℚ) : ParsePdfOut :=
  let cfg := resolveParseConfig config
  let g := ParseResultCache.get hash ttl s fileHash cfg "llamaparse" now
  match g.result with
  | some md => ⟨⟨md, pageCount⟩, g.store⟩
  | none =>
      ⟨⟨engineMd, pageCount⟩,
        ParseResultCache.set hash g.store fileHash cfg engineMd "llamaparse" now⟩

/-- C7: Config-validation fallback. A configuration that fails validation
does not fail the request: `parse_pdf` discards the entire supplied
configuration, falls back wholesale to the defaults, and proceeds with the
cache lookup and parse exactly as if no configuration had been supplied. -/
theorem parse_pdf_config_fallback (hash : String → String) (engineMd : String)
    (ttl : ℕ) (s : Store ParseFileContent) (fileHash : String) (pageCount : ℕ)
    (c : ConfigDict) (now : ℚ) (h : validateParseConfig c = none) :
    resolveParseConfig (some c) = defaultParseConfig.model_dump ∧
    parse_pdf hash engineMd ttl s fileHash pageCount (some c) now =
      parse_pdf hash engineMd ttl s fileHash pageCount none now := by
  have hr : resolveParseConfig (some c) = defaultParseConfig.model_dump := by
    simp [resolveParseConfig, h]
  exact ⟨hr, by rw [parse_pdf, parse_pdf, hr]; rfl⟩

theorem parse_pdf_config_fallback_witness :
    validateParseConfig [("unknown_field", JVal.int 1)] = none ∧
    (resolveParseConfig (some [("unknown_field", JVal.int 1)]) =
        defaultParseConfig.model_dump ∧
      parse_pdf id "md" 5 [] "fh" 3 (some [("unknown_field", JVal.int 1)]) 0 =
        parse_pdf id "md" 5 [] "fh" 3 none 0) :=
  ⟨by decide,
    parse_pdf_config_fallback id "md" 5 [] "fh" 3 [("unknown_field", JVal.int 1)] 0
      (by decide)⟩

/-- Chunk metadata: a Python dict of scalar values. -/
abbrev Metadata := List (String × JVal)

/-- A chunk as consumed by `enrich_metadata` (metadata.py): a dict with
`text` and `metadata` entries (`chunk.get('text', '')` /
`chunk.get('metadata', {})`). -/
structure Chunk where
  text : String
  metadata : Metadata
  deriving DecidableEq

/-- `should_include_field` (metadata.py:64-68): with no schema every field is
included; with a schema only its members are. -/
def should_include_field (schema : Option (List String)) (field : String) : Bool :=
  match schema with
  | none => true
  | some names => names.contains field

/-- Python `str.strip()` on a character list: drop leading and trailing
whitespace. -/
def stripChars (l : List Char) : List Char :=
  ((l.dropWhile Char.isWhitespace).reverse.dropWhile Char.isWhitespace).reverse

/-- Python `str.strip()`. -/
def pyStrip (s : String) : String :=
  String.mk (stripChars s.toList)

/-- Python `text.strip().split('\n')`: split the stripped text at every
newline (separators dropped, empty pieces kept). -/
def splitLines (s : String) : List String :=
  ((stripChars s.toList).splitOnP (fun c => decide (c = '\n'))).map String.mk

/-- The markdown heading match `^(#{1,6})\s+(.+)$` applied to one stripped
line (metadata.py:163): 1-6 leading hash marks, whitespace, then the heading
text. Returns (level, trimmed heading text). -/
def headingOfLine (line : String) : Option (ℕ × String) :=
  let t := stripChars line.toList
  let k := (t.takeWhile (fun c => c = '#')).length
  let rest := t.drop k
  if 1 ≤ k ∧ k ≤ 6 then
    match rest with
    | c :: _ =>
        if c.isWhitespace then
          let ht := String.mk (stripChars rest)
          if ht = "" then none else some (k, ht)
        else none
    | [] => none
  else none

/-- `extract_heading_metadata` (metadata.py:146-171): look at the first five
lines of the stripped text and take the first markdown heading found. The
source returns the dict carrying `heading_<level>` and `heading_level`; the
pair (level, text) carries the same information. -/
def extract_heading_metadata (text : String) : Option (ℕ × String) :=
  ((splitLines text).take 5).findSome? headingOfLine

/-- Python truthiness of a scalar value. -/
def jvalTruthy : JVal → Bool
  | .str s => s ≠ ""
  | .int n => n ≠ 0
  | .jbool b => b
  | .null => false

/-- The string a heading value contributes to `" > ".join(...)`. Heading
values produced by this module are always strings; for them this is the
identity (a non-string heading value would make the Python join raise, a
path no claim exercises). -/
def jvalJoinStr : JVal → String
  | .str s => s
  | v => v.dumps

/-- `build_section_path` (metadata.py:174-191): join the truthy
`heading_1..heading_6` values present in the metadata, in level order, with
`" > "`. -/
def build_section_path (m : Metadata) : String :=
  let parts := (List.range' 1 6).filterMap (fun level =>
    match dictGet m ("heading_" ++ toString level) with
    | some v => if jvalTruthy v then some (jvalJoinStr v) else none
    | none => none)
  String.intercalate " > " parts

/-- The running heading context `current_headings`: level to heading text. -/
abbrev HeadingCtx := List (ℕ × String)

/-- The context update in `enrich_metadata`'s generic branch
(metadata.py:115-119): store the discovered heading at its level, then pop
every level in `range(level + 1, 7)`. -/
def updateHeadingContext (ctx : HeadingCtx) (level : ℕ) (value : String) :
    HeadingCtx :=
  (dictSet ctx level value).filter (fun p => !(level + 1 ≤ p.1 ∧ p.1 ≤ 6))

/-- `sorted(current_headings.keys())`. -/
def ctxSortedKeys (ctx : HeadingCtx) : List ℕ :=
  (ctx.map Prod.fst).insertionSort (fun a b => a ≤ b)

/-- One iteration of the write-back loop (metadata.py:129-132): write the
tracked heading at `level` into the metadata if the schema permits. -/
def ctxWritebackStep (schema : Option (List String)) (ctx : HeadingCtx)
    (acc : Metadata) (level : ℕ) : Metadata :=
  if should_include_field schema ("heading_" ++ toString level) then
    match dictGet ctx level with
    | some v => dictSet acc ("heading_" ++ toString level) (JVal.str v)
    | none => acc
  else acc

/-- The write-back loop (metadata.py:129-132): every currently tracked
heading level is written into the chunk's metadata, in sorted level order,
subject to schema filtering. -/
def ctxWriteback (schema : Option (List String)) (ctx : HeadingCtx)
    (m : Metadata) : Metadata :=
  (ctxSortedKeys ctx).foldl (ctxWritebackStep schema ctx) m

/-- Token-count step (metadata.py:74-76): add `token_count` when absent and
permitted by schema. -/
def addTokenCount (tokenCount : String → ℕ) (schema : Option (List String))
    (text : String) (m : Metadata) : Metadata :=
  if (dictGet m "token_count").isNone ∧ should_include_field schema "token_count"
  then dictSet m "token_count" (JVal.int (tokenCount text)) else m

/-- Position step (metadata.py:79-80). -/
def addPosition (schema : Option (List String)) (idx : ℕ) (m : Metadata) : Metadata :=
  if should_include_field schema "position_in_document"
  then dictSet m "position_in_document" (JVal.int idx) else m

/-- Total-chunks step (metadata.py:81-82). -/
def addTotal (schema : Option (List String)) (total : ℕ) (m : Metadata) : Metadata :=
  if should_include_field schema "total_chunks"
  then dictSet m "total_chunks" (JVal.int total) else m

/-- Section-path step (metadata.py:101-104 and 133-136): if permitted, build
the path and store it when non-empty. -/
def addSectionPath (schema : Option (List String)) (m : Metadata) : Metadata :=
  if should_include_field schema "section_path" then
    let sp := build_section_path m
    if sp ≠ "" then dictSet m "section_path" (JVal.str sp) else m
  else m

/-- `by_heading` branch (metadata.py:85-91): derive `section_path` only when
it is absent and permitted. -/
def byHeadingStep (schema : Option (List String)) (m : Metadata) : Metadata :=
  if (dictGet m "section_path").isNone ∧ should_include_field schema "section_path"
  then
    let sp := build_section_path m
    if sp ≠ "" then dictSet m "section_path" (JVal.str sp) else m
  else m

/-- `metadata.update(filtered_meta)` for a discovered heading: write
`heading_<level>` then `heading_level`, each subject to the schema. -/
def addHeadingFields (schema : Option (List String)) (lvl : ℕ) (h : String)
    (m : Metadata) : Metadata :=
  let mA :=
    if should_include_field schema ("heading_" ++ toString lvl)
    then dictSet m ("heading_" ++ toString lvl) (JVal.str h) else m
  if should_include_field schema "heading_level"
  then dictSet mA "heading_level" (JVal.int lvl) else mA

/-- `hierarchical` branch (metadata.py:93-104): only when `heading_level` is
absent, extract a heading from the text, merge the schema-filtered heading
fields, and recompute the section path when a heading was found. -/
def hierarchicalStep (schema : Option (List String)) (text : String)
    (m : Metadata) : Metadata :=
  if (dictGet m "heading_level").isNone then
    match extract_heading_metadata text with
    | some (lvl, h) => addSectionPath schema (addHeadingFields schema lvl h m)
    | none => m
  else m

/-- Generic-strategy branch (metadata.py:106-136): extract a heading from the
text, fold it into the running context (clearing deeper levels), merge the
schema-filtered heading fields, then write back every tracked level and
rebuild the section path from the accumulated context. Returns the new
metadata and the updated context. -/
def otherStep (schema : Option (List String)) (text : String) (ctx : HeadingCtx)
    (m : Metadata) : Metadata × HeadingCtx :=
  let step :=
    match extract_heading_metadata text with
    | some (lvl, h) => (addHeadingFields schema lvl h m, updateHeadingContext ctx lvl h)
    | none => (m, ctx)
  if step.2 ≠ [] then (addSectionPath schema (ctxWriteback schema step.2 step.1), step.2)
  else step

/-- The body of `enrich_metadata`'s per-chunk loop (metadata.py:70-141),
walking the chunks with the current index and heading context.
`tokenCount` is the external token counter (`calculate_token_count`). -/
def enrichGo (tokenCount : String → ℕ) (schema : Option (List String))
    (strategy : String) (total : ℕ) : ℕ → HeadingCtx → List Chunk → List Chunk
  | _, _, [] => []
  | idx, ctx, chunk :: rest =>
      let text := chunk.text
      let m3 := addTotal schema total (addPosition schema idx
        (addTokenCount tokenCount schema text chunk.metadata))
      if strategy = "by_heading" then
        ⟨text, byHeadingStep schema m3⟩ ::
          enrichGo tokenCount schema strategy total (idx + 1) ctx rest
      else if strategy = "hierarchical" then
        ⟨text, hierarchicalStep schema text m3⟩ ::
          enrichGo tokenCount schema strategy total (idx + 1) ctx rest
      else
        let p := otherStep schema text ctx m3
        ⟨text, p.1⟩ :: enrichGo tokenCount schema strategy total (idx + 1) p.2 rest

def enrich_metadata (tokenCount : String → ℕ) (chunks : List Chunk)
    (strategy : String) (original_text : String)
    (schema : Option (List String)) : List Chunk :=
  enrichGo tokenCount schema strategy chunks.length 0 [] chunks

/-! Dictionary lemmas. -/

theorem dictGet_map_set_ne {κ ν : Type} [DecidableEq κ] (r : List (κ × ν))
    (k k2 : κ) (v : ν) (h : k2 ≠ k) :
    dictGet (r.map (fun q => if q.1 = k then (k, v) else q)) k2 = dictGet r k2 := by
  induction r with
  | nil => rfl
  | cons q r ih =>
      by_cases hq : q.1 = k
      · simp [dictGet, hq, Ne.symm h, ih]
      · simp [dictGet, hq, ih]

theorem dictSet_cons_ne {κ ν : Type} [DecidableEq κ] (p : κ × ν) (r : List (κ × ν))
    (k : κ) (v : ν) (hp : p.1 ≠ k) :
    dictSet (p :: r) k v = p :: dictSet r k v := by
  by_cases hr : r.any (fun q => decide (q.1 = k)) <;> simp [dictSet, hp, hr]

theorem dictGet_dictSet {κ ν : Type} [DecidableEq κ] (m : List (κ × ν)) (k k2 : κ)
    (v : ν) :
    dictGet (dictSet m k v) k2 = if k2 = k then some v else dictGet m k2 := by
  induction m with
  | nil =>
      by_cases hk : k2 = k <;> simp [dictSet, dictGet, hk]
      exact fun h => absurd h.symm hk
  | cons p r ih =>
      by_cases hp : p.1 = k
      · have hset : dictSet (p :: r) k v =
            (k, v) :: r.map (fun q => if q.1 = k then (k, v) else q) := by
          simp [dictSet, hp]
        rw [hset]
        by_cases hk : k2 = k
        · subst hk; simp [dictGet]
        · have hk2 : k ≠ k2 := fun he => hk he.symm
          simp [dictGet, hk2, hk, dictGet_map_set_ne r k k2 v hk, hp]
      · rw [dictSet_cons_ne p r k v hp]
        by_cases hpk2 : p.1 = k2
        · have hk : k2 ≠ k := fun h => hp (hpk2.trans h)
          simp [dictGet, hpk2, hk]
        · simp [dictGet, hpk2, ih]

theorem dictGet_some_mem {κ ν : Type} [DecidableEq κ] (m : List (κ × ν)) (k : κ)
    (v : ν) (h : dictGet m k = some v) : k ∈ m.map Prod.fst := by
  induction m with
  | nil => simp [dictGet] at h
  | cons p r ih =>
      by_cases hp : p.1 = k
      · simp [hp.symm]
      · simp [dictGet, hp] at h
        simp [ih h]

theorem dictGet_filter_none {ν : Type} (l : List (ℕ × ν)) (p : ℕ × ν → Bool)
    (k : ℕ) (h : ∀ x ∈ l, x.1 = k → p x = false) :
    dictGet (l.filter p) k = none := by
  induction l with
  | nil => rfl
  | cons x xs ih =>
      have ih2 := ih (fun y hy => h y (List.mem_cons_of_mem x hy))
      by_cases hpx : p x = true
      · have hxk : x.1 ≠ k := fun he => by
          have := h x (List.mem_cons_self x xs) he
          rw [this] at hpx
          exact Bool.false_ne_true hpx
        simp [List.filter_cons, hpx, dictGet, hxk, ih2]
      · simp [List.filter_cons, hpx, ih2]

/-- A discovered heading of level `lvl` clears every deeper tracked level. -/
theorem updateHeadingContext_clears (ctx : HeadingCtx) (lvl l : ℕ) (v : String)
    (h1 : lvl < l) (h2 : l ≤ 6) :
    dictGet (updateHeadingContext ctx lvl v) l = none := by
  apply dictGet_filter_none
  intro x _ hx
  simp [hx]
  omega

/-- `"heading_" ++ toString` is injective on levels 1..6. -/
theorem heading_key_inj (a b : ℕ) (ha1 : 1 ≤ a) (ha2 : a ≤ 6) (hb1 : 1 ≤ b)
    (hb2 : b ≤ 6) (h : "heading_" ++ toString a = "heading_" ++ toString b) :
    a = b := by
  interval_cases a <;> interval_cases b <;> first | rfl | exact absurd h (by decide)

theorem ctxWriteback_go_preserve (schema : Option (List String)) (ctx : HeadingCtx)
    (ks : List ℕ) (m : Metadata) (key : String)
    (h : ∀ k2 ∈ ks, ("heading_" ++ toString k2) ≠ key) :
    dictGet (ks.foldl (ctxWritebackStep schema ctx) m) key = dictGet m key := by
  induction ks generalizing m with
  | nil => rfl
  | cons k ks ih =>
      have hk := h k (List.mem_cons_self k ks)
      have ih2 := ih (ctxWritebackStep schema ctx m k)
        (fun k2 hk2 => h k2 (List.mem_cons_of_mem k hk2))
      rw [List.foldl_cons, ih2, ctxWritebackStep]
      split
      · split
        · rw [dictGet_dictSet]
          exact if_neg (fun he => hk he.symm)
        · rfl
      · rfl

theorem ctxWriteback_go_writes (ctx : HeadingCtx) (ks : List ℕ) (m : Metadata)
    (l : ℕ) (v : String) (hnd : ks.Nodup) (hmem : l ∈ ks)
    (hrange : ∀ k2 ∈ ks, 1 ≤ k2 ∧ k2 ≤ 6) (hv : dictGet ctx l = some v) :
    dictGet (ks.foldl (ctxWritebackStep none ctx) m) ("heading_" ++ toString l) =
      some (JVal.str v) := by
  induction ks generalizing m with
  | nil => exact absurd hmem (List.not_mem_nil l)
  | cons k ks ih =>
      rw [List.foldl_cons]
      by_cases hlk : l = k
      · subst hlk
        have hnotmem : l ∉ ks := (List.nodup_cons.mp hnd).1
        have hstep : ctxWritebackStep none ctx m l =
            dictSet m ("heading_" ++ toString l) (JVal.str v) := by
          rw [ctxWritebackStep, hv]
          simp [should_include_field]
        rw [hstep, ctxWriteback_go_preserve]
        · rw [dictGet_dictSet, if_pos rfl]
        · intro k2 hk2 he
          have hb := hrange k2 (List.mem_cons_of_mem l hk2)
          have hl := hrange l (List.mem_cons_self l ks)
          exact hnotmem (heading_key_inj k2 l hb.1 hb.2 hl.1 hl.2 he ▸ hk2)
      · rcases List.mem_cons.mp hmem with h | h
        · exact absurd h hlk
        · exact ih (ctxWritebackStep none ctx m k) (List.nodup_cons.mp hnd).2 h
            (fun k2 hk2 => hrange k2 (List.mem_cons_of_mem k hk2))

/-- Every tracked level of the heading context is written back into the
metadata (no schema filter). -/
theorem ctxWriteback_writes (ctx : HeadingCtx) (m : Metadata) (l : ℕ) (v : String)
    (hnd : (ctx.map Prod.fst).Nodup) (hrange : ∀ p ∈ ctx, 1 ≤ p.1 ∧ p.1 ≤ 6)
    (hv : dictGet ctx l = some v) :
    dictGet (ctxWriteback none ctx m) ("heading_" ++ toString l) =
      some (JVal.str v) := by
  have hperm := List.perm_insertionSort (fun a b : ℕ => a ≤ b) (ctx.map Prod.fst)
  have hnd2 : (ctxSortedKeys ctx).Nodup := hperm.nodup_iff.mpr hnd
  have hmem : l ∈ ctxSortedKeys ctx :=
    hperm.mem_iff.mpr (dictGet_some_mem ctx l v hv)
  have hrange2 : ∀ k2 ∈ ctxSortedKeys ctx, 1 ≤ k2 ∧ k2 ≤ 6 := by
    intro k2 hk2
    have : k2 ∈ ctx.map Prod.fst := hperm.mem_iff.mp hk2
    obtain ⟨p, hp, he⟩ := List.mem_map.mp this
    exact he ▸ hrange p hp
  exact ctxWriteback_go_writes ctx (ctxSortedKeys ctx) m l v hnd2 hmem hrange2 hv

set_option maxHeartbeats 1000000 in
/-- The enrichment of the claim's three-chunk example, evaluated in full for
any non-heading strategy and token counter. -/
theorem enrich_example_eval (strategy : String) (h1 : strategy ≠ "by_heading")
    (h2 : strategy ≠ "hierarchical") (tc : String → ℕ) :
    enrich_metadata tc
      [⟨"# A\n...", []⟩, ⟨"body, no heading", []⟩, ⟨"## B\n...", []⟩]
      strategy "doc" none =
    [⟨"# A\n...", [("token_count", JVal.int (tc "# A\n...")),
        ("position_in_document", JVal.int 0), ("total_chunks", JVal.int 3),
        ("heading_1", JVal.str "A"), ("heading_level", JVal.int 1),
        ("section_path", JVal.str "A")]⟩,
      ⟨"body, no heading", [("token_count", JVal.int (tc "body, no heading")),
        ("position_in_document", JVal.int 1), ("total_chunks", JVal.int 3),
        ("heading_1", JVal.str "A"), ("section_path", JVal.str "A")]⟩,
      ⟨"## B\n...", [("token_count", JVal.int (tc "## B\n...")),
        ("position_in_document", JVal.int 2), ("total_chunks", JVal.int 3),
        ("heading_2", JVal.str "B"), ("heading_level", JVal.int 2),
        ("heading_1", JVal.str "A"), ("section_path", JVal.str "A > B")]⟩] := by
  simp only [enrich_metadata, enrichGo, if_neg h1, if_neg h2]
  rfl

/-- C3: Heading-context breadcrumb. For any strategy other than `by_heading`
and `hierarchical` and no schema filter, enriching the chunks
`"# A\n..."`, `"body, no heading"`, `"## B\n..."` gives the second chunk
`heading_1 = "A"`, `section_path = "A"` and the third chunk
`heading_1 = "A"`, `heading_2 = "B"`, `section_path = "A > B"`; in general a
discovered heading of level `lvl` clears every tracked level greater than
`lvl` from the running context, and every currently tracked level is written
back into the chunk's metadata before the section path is rebuilt. -/
theorem heading_context_breadcrumb :
    (∀ (strategy : String), strategy ≠ "by_heading" → strategy ≠ "hierarchical" →
      ∀ tc : String → ℕ,
      dictGet ((enrich_metadata tc
          [⟨"# A\n...", []⟩, ⟨"body, no heading", []⟩, ⟨"## B\n...", []⟩]
          strategy "doc" none).getD 1 ⟨"", []⟩).metadata "heading_1" =
          some (JVal.str "A") ∧
      dictGet ((enrich_metadata tc
          [⟨"# A\n...", []⟩, ⟨"body, no heading", []⟩, ⟨"## B\n...", []⟩]
          strategy "doc" none).getD 1 ⟨"", []⟩).metadata "section_path" =
          some (JVal.str "A") ∧
      dictGet ((enrich_metadata tc
          [⟨"# A\n...", []⟩, ⟨"body, no heading", []⟩, ⟨"## B\n...", []⟩]
          strategy "doc" none).getD 2 ⟨"", []⟩).metadata "heading_1" =
          some (JVal.str "A") ∧
      dictGet ((enrich_metadata tc
          [⟨"# A\n...", []⟩, ⟨"body, no heading", []⟩, ⟨"## B\n...", []⟩]
          strategy "doc" none).getD 2 ⟨"", []⟩).metadata "heading_2" =
          some (JVal.str "B") ∧
      dictGet ((enrich_metadata tc
          [⟨"# A\n...", []⟩, ⟨"body, no heading", []⟩, ⟨"## B\n...", []⟩]
          strategy "doc" none).getD 2 ⟨"", []⟩).metadata "section_path" =
          some (JVal.str "A > B")) ∧
    (∀ (ctx : HeadingCtx) (lvl l : ℕ) (v : String), lvl < l → l ≤ 6 →
      dictGet (updateHeadingContext ctx lvl v) l = none) ∧
    (∀ (ctx : HeadingCtx) (m : Metadata) (l : ℕ) (v : String),
      (ctx.map Prod.fst).Nodup → (∀ p ∈ ctx, 1 ≤ p.1 ∧ p.1 ≤ 6) →
      dictGet ctx l = some v →
      dictGet (ctxWriteback none ctx m) ("heading_" ++ toString l) =
        some (JVal.str v)) := by
  refine ⟨fun strategy h1 h2 tc => ?_, updateHeadingContext_clears, ctxWriteback_writes⟩
  rw [enrich_example_eval strategy h1 h2 tc]
  exact ⟨rfl, rfl, rfl, rfl, rfl⟩

theorem heading_context_breadcrumb_witness :
    (("semantic" : String) ≠ "by_heading" ∧ ("semantic" : String) ≠ "hierarchical" ∧
      (1 : ℕ) < 2 ∧ (2 : ℕ) ≤ 6 ∧
      (([(1, "A")] : HeadingCtx).map Prod.fst).Nodup ∧
      (∀ p ∈ ([(1, "A")] : HeadingCtx), 1 ≤ p.1 ∧ p.1 ≤ 6) ∧
      dictGet ([(1, "A")] : HeadingCtx) 1 = some "A") ∧
    dictGet ((enrich_metadata (fun _ => 0)
        [⟨"# A\n...", []⟩, ⟨"body, no heading", []⟩, ⟨"## B\n...", []⟩]
        "semantic" "doc" none).getD 1 ⟨"", []⟩).metadata "heading_1" =
        some (JVal.str "A") ∧
    dictGet (updateHeadingContext [(1, "A")] 1 "A2") 2 = none ∧
    dictGet (ctxWriteback none [(1, "A")] []) ("heading_" ++ toString 1) =
      some (JVal.str "A") := by
  refine ⟨⟨by decide, by decide, by decide, by decide, by decide, by decide, by decide⟩,
    ?_, ?_, ?_⟩
  · exact ((heading_context_breadcrumb.1 "semantic" (by decide) (by decide)
      (fun _ => 0))).1
  · exact heading_context_breadcrumb.2.1 [(1, "A")] 1 2 "A2" (by decide) (by decide)
  · exact heading_context_breadcrumb.2.2 [(1, "A")] [] 1 "A" (by decide)
      (by decide) (by decide)

/-! Schema-filtering lemmas. -/

theorem include_ne (k key2 : String) (s : List String) (hk : s.contains k = false)
    (hinc : should_include_field (some s) key2 = true) : ¬ k = key2 := by
  intro he
  subst he
  simp only [should_include_field] at hinc
  rw [hinc] at hk
  cases hk

theorem addTokenCount_preserve (tc : String → ℕ) (s : List String) (text : String)
    (m : Metadata) (k : String) (hk : s.contains k = false) :
    dictGet (addTokenCount tc (some s) text m) k = dictGet m k := by
  rw [addTokenCount]
  split
  · next h => rw [dictGet_dictSet, if_neg (include_ne k "token_count" s hk h.2)]
  · rfl

theorem addPosition_preserve (s : List String) (idx : ℕ) (m : Metadata) (k : String)
    (hk : s.contains k = false) :
    dictGet (addPosition (some s) idx m) k = dictGet m k := by
  rw [addPosition]
  split
  · next h => rw [dictGet_dictSet, if_neg (include_ne k "position_in_document" s hk h)]
  · rfl

theorem addTotal_preserve (s : List String) (total : ℕ) (m : Metadata) (k : String)
    (hk : s.contains k = false) :
    dictGet (addTotal (some s) total m) k = dictGet m k := by
  rw [addTotal]
  split
  · next h => rw [dictGet_dictSet, if_neg (include_ne k "total_chunks" s hk h)]
  · rfl

theorem addSectionPath_preserve (s : List String) (m : Metadata) (k : String)
    (hk : s.contains k = false) :
    dictGet (addSectionPath (some s) m) k = dictGet m k := by
  simp only [addSectionPath]
  split
  · next h =>
      split
      · rw [dictGet_dictSet, if_neg (include_ne k "section_path" s hk h)]
      · rfl
  · rfl

theorem byHeadingStep_preserve (s : List String) (m : Metadata) (k : String)
    (hk : s.contains k = false) :
    dictGet (byHeadingStep (some s) m) k = dictGet m k := by
  simp only [byHeadingStep]
  split
  · next h =>
      split
      · rw [dictGet_dictSet, if_neg (include_ne k "section_path" s hk h.2)]
      · rfl
  · rfl

theorem addHeadingFields_preserve (s : List String) (lvl : ℕ) (h : String)
    (m : Metadata) (k : String) (hk : s.contains k = false) :
    dictGet (addHeadingFields (some s) lvl h m) k = dictGet m k := by
  simp only [addHeadingFields]
  have inner : ∀ m2 : Metadata,
      dictGet (if should_include_field (some s) ("heading_" ++ toString lvl)
        then dictSet m2 ("heading_" ++ toString lvl) (JVal.str h) else m2) k =
      dictGet m2 k := by
    intro m2
    split
    · next h1 => rw [dictGet_dictSet, if_neg (include_ne k _ s hk h1)]
    · rfl
  split
  · next h2 =>
      rw [dictGet_dictSet, if_neg (include_ne k "heading_level" s hk h2)]
      exact inner m
  · exact inner m

theorem hierarchicalStep_preserve (s : List String) (text : String) (m : Metadata)
    (k : String) (hk : s.contains k = false) :
    dictGet (hierarchicalStep (some s) text m) k = dictGet m k := by
  simp only [hierarchicalStep]
  split
  · split
    · rw [addSectionPath_preserve s _ k hk, addHeadingFields_preserve s _ _ m k hk]
    · rfl
  · rfl

theorem ctxWriteback_preserve (s : List String) (ctx : HeadingCtx) (m : Metadata)
    (k : String) (hk : s.contains k = false) :
    dictGet (ctxWriteback (some s) ctx m) k = dictGet m k := by
  rw [ctxWriteback]
  generalize ctxSortedKeys ctx = ks
  induction ks generalizing m with
  | nil => rfl
  | cons k2 ks ih =>
      rw [List.foldl_cons, ih]
      rw [ctxWritebackStep]
      split
      · next h2 =>
          split
          · rw [dictGet_dictSet, if_neg (include_ne k _ s hk h2)]
          · rfl
      · rfl

theorem otherStep_preserve (s : List String) (text : String) (ctx : HeadingCtx)
    (m : Metadata) (k : String) (hk : s.contains k = false) :
    dictGet (otherStep (some s) text ctx m).1 k = dictGet m k := by
  simp only [otherStep]
  split <;> split <;>
    first
      | rfl
      | rw [addSectionPath_preserve s _ k hk, ctxWriteback_preserve s _ _ k hk,
          addHeadingFields_preserve s _ _ m k hk]
      | rw [addSectionPath_preserve s _ k hk, ctxWriteback_preserve s _ _ k hk]
      | rw [addHeadingFields_preserve s _ _ m k hk]

theorem enrichGo_length (tc : String → ℕ) (schema : Option (List String))
    (strategy : String) (total : ℕ) :
    ∀ (idx : ℕ) (ctx : HeadingCtx) (chunks : List Chunk),
      (enrichGo tc schema strategy total idx ctx chunks).length = chunks.length
  | _, _, [] => rfl
  | idx, ctx, chunk :: rest => by
      rw [enrichGo]
      split
      · simp [enrichGo_length tc schema strategy total (idx + 1) ctx rest]
      · split
        · simp [enrichGo_length tc schema strategy total (idx + 1) ctx rest]
        · simp [enrichGo_length tc schema strategy total (idx + 1) _ rest]

theorem enrichGo_preserve (tc : String → ℕ) (s : List String) (strategy : String)
    (total : ℕ) (k : String) (hk : s.contains k = false) :
    ∀ (idx : ℕ) (ctx : HeadingCtx) (chunks : List Chunk) (i : ℕ),
      dictGet ((enrichGo tc (some s) strategy total idx ctx chunks).getD i
        ⟨"", []⟩).metadata k =
      dictGet ((chunks.getD i ⟨"", []⟩)).metadata k
  | _, _, [], _ => rfl
  | idx, ctx, chunk :: rest, i => by
      have hm3 : dictGet (addTotal (some s) total (addPosition (some s) idx
          (addTokenCount tc (some s) chunk.text chunk.metadata))) k =
          dictGet chunk.metadata k := by
        rw [addTotal_preserve s total _ k hk, addPosition_preserve s idx _ k hk,
          addTokenCount_preserve tc s _ _ k hk]
      rw [enrichGo]
      split
      · cases i with
        | zero => simpa using (byHeadingStep_preserve s _ k hk).trans hm3
        | succ j =>
            simpa using enrichGo_preserve tc s strategy total k hk (idx + 1) ctx rest j
      · split
        · cases i with
          | zero => simpa using (hierarchicalStep_preserve s chunk.text _ k hk).trans hm3
          | succ j =>
              simpa using enrichGo_preserve tc s strategy total k hk (idx + 1) ctx rest j
        · cases i with
          | zero => simpa using (otherStep_preserve s chunk.text ctx _ k hk).trans hm3
          | succ j =>
              simpa using enrichGo_preserve tc s strategy total k hk (idx + 1) _ rest j

theorem heading_ne_token (x : String) : ("heading_" ++ x) ≠ "token_count" := by
  intro h
  have h2 : ("heading_" ++ x).data = "token_count".data := congrArg String.data h
  have e : ("heading_" ++ x).data = "heading_".data ++ x.data := String.data_append _ _
  rw [e] at h2
  have e2 : "heading_".data = ['h', 'e', 'a', 'd', 'i', 'n', 'g', '_'] := rfl
  have e3 : "token_count".data = ['t', 'o', 'k', 'e', 'n', '_', 'c', 'o', 'u', 'n',
    't'] := rfl
  rw [e2, e3] at h2
  simp at h2

theorem include_tc_heading (lvl : ℕ) :
    should_include_field (some ["token_count"]) ("heading_" ++ toString lvl) = false := by
  simp only [should_include_field, List.contains_cons, List.contains_nil,
    Bool.or_false]
  exact beq_eq_false_iff_ne.mpr (heading_ne_token (toString lvl))

theorem addHeadingFields_tc (lvl : ℕ) (h : String) (m : Metadata) :
    addHeadingFields (some ["token_count"]) lvl h m = m := by
  simp only [addHeadingFields, include_tc_heading lvl]
  rfl

theorem ctxWriteback_tc (ctx : HeadingCtx) (m : Metadata) :
    ctxWriteback (some ["token_count"]) ctx m = m := by
  rw [ctxWriteback]
  generalize ctxSortedKeys ctx = ks
  induction ks generalizing m with
  | nil => rfl
  | cons k2 ks ih =>
      rw [List.foldl_cons, ctxWritebackStep, include_tc_heading k2]
      simpa using ih m

theorem otherStep_tc (text : String) (ctx : HeadingCtx) (m : Metadata) :
    (otherStep (some ["token_count"]) text ctx m).1 = m := by
  simp only [otherStep, addSectionPath]
  split <;> split <;>
    simp_all [addHeadingFields_tc, ctxWriteback_tc, should_include_field] <;>
    (rcases hx : extract_heading_metadata text with _ | ⟨lvl, hh⟩ <;> simp [hx])

theorem hierarchicalStep_tc (text : String) (m : Metadata) :
    hierarchicalStep (some ["token_count"]) text m = m := by
  simp only [hierarchicalStep, addSectionPath]
  split
  · split <;> simp_all [addHeadingFields_tc, should_include_field]
  · rfl

theorem byHeadingStep_tc (m : Metadata) :
    byHeadingStep (some ["token_count"]) m = m := by
  simp [byHeadingStep, should_include_field]

theorem addTokenCount_isSome (tc : String → ℕ) (schema : Option (List String))
    (text : String) (m : Metadata)
    (hinc : should_include_field schema "token_count" = true) :
    (dictGet (addTokenCount tc schema text m) "token_count").isSome = true := by
  rw [addTokenCount]
  split
  · rw [dictGet_dictSet, if_pos rfl]
    rfl
  · next h =>
      cases ho : dictGet m "token_count" with
      | none => exact absurd ⟨by rw [ho]; rfl, hinc⟩ h
      | some v => rfl

theorem enrichGo_token_present (tc : String → ℕ) (strategy : String) (total : ℕ) :
    ∀ (idx : ℕ) (ctx : HeadingCtx) (chunks : List Chunk) (c : Chunk),
      c ∈ enrichGo tc (some ["token_count"]) strategy total idx ctx chunks →
      (dictGet c.metadata "token_count").isSome = true
  | _, _, [], c => by intro h; exact absurd h (List.not_mem_nil c)
  | idx, ctx, chunk :: rest, c => by
      intro hmem
      have hm3 : addTotal (some ["token_count"]) total
          (addPosition (some ["token_count"]) idx
            (addTokenCount tc (some ["token_count"]) chunk.text chunk.metadata)) =
          addTokenCount tc (some ["token_count"]) chunk.text chunk.metadata := by
        rw [addTotal, addPosition]
        rfl
      have hts : (dictGet (addTokenCount tc (some ["token_count"]) chunk.text
          chunk.metadata) "token_count").isSome = true :=
        addTokenCount_isSome tc _ chunk.text chunk.metadata rfl
      rw [enrichGo] at hmem
      split at hmem
      · rcases List.mem_cons.mp hmem with he | he
        · subst he
          simpa [byHeadingStep_tc, hm3] using hts
        · exact enrichGo_token_present tc strategy total (idx + 1) ctx rest c he
      · split at hmem
        · rcases List.mem_cons.mp hmem with he | he
          · subst he
            simpa [hierarchicalStep_tc, hm3] using hts
          · exact enrichGo_token_present tc strategy total (idx + 1) ctx rest c he
        · rcases List.mem_cons.mp hmem with he | he
          · subst he
            simpa [otherStep_tc, hm3] using hts
          · exact enrichGo_token_present tc strategy total (idx + 1) _ rest c he

/-- C6: Schema filtering. With `schemaFieldNames = {"token_count"}` every
enriched chunk's metadata contains `token_count` (computed when absent), and
enrichment never writes `position_in_document`, `total_chunks`, any
`heading_N` field, or `section_path` (each is exactly as in the input chunk);
in general, whenever a schema is supplied, a field not in the schema is never
written — its metadata entry is exactly the input's. -/
theorem enrich_schema_filtering :
    (∀ (tc : String → ℕ) (chunks : List Chunk) (strategy text : String),
      ∀ c ∈ enrich_metadata tc chunks strategy text (some ["token_count"]),
        (dictGet c.metadata "token_count").isSome = true) ∧
    (∀ (tc : String → ℕ) (chunks : List Chunk) (strategy text : String) (i : ℕ),
      dictGet ((enrich_metadata tc chunks strategy text
          (some ["token_count"])).getD i ⟨"", []⟩).metadata "position_in_document" =
        dictGet (chunks.getD i ⟨"", []⟩).metadata "position_in_document" ∧
      dictGet ((enrich_metadata tc chunks strategy text
          (some ["token_count"])).getD i ⟨"", []⟩).metadata "total_chunks" =
        dictGet (chunks.getD i ⟨"", []⟩).metadata "total_chunks" ∧
      dictGet ((enrich_metadata tc chunks strategy text
          (some ["token_count"])).getD i ⟨"", []⟩).metadata "section_path" =
        dictGet (chunks.getD i ⟨"", []⟩).metadata "section_path" ∧
      ∀ lvl : ℕ,
        dictGet ((enrich_metadata tc chunks strategy text
            (some ["token_count"])).getD i ⟨"", []⟩).metadata
            ("heading_" ++ toString lvl) =
          dictGet (chunks.getD i ⟨"", []⟩).metadata ("heading_" ++ toString lvl)) ∧
    (∀ (tc : String → ℕ) (chunks : List Chunk) (strategy text : String)
        (s : List String) (k : String), s.contains k = false → ∀ i : ℕ,
      dictGet ((enrich_metadata tc chunks strategy text (some s)).getD i
        ⟨"", []⟩).metadata k =
      dictGet (chunks.getD i ⟨"", []⟩).metadata k) := by
  have gen : ∀ (tc : String → ℕ) (chunks : List Chunk) (strategy text : String)
      (s : List String) (k : String), s.contains k = false → ∀ i : ℕ,
      dictGet ((enrich_metadata tc chunks strategy text (some s)).getD i
        ⟨"", []⟩).metadata k =
      dictGet (chunks.getD i ⟨"", []⟩).metadata k := by
    intro tc chunks strategy text s k hk i
    rw [enrich_metadata]
    exact enrichGo_preserve tc s strategy chunks.length k hk 0 [] chunks i
  refine ⟨?_, ?_, gen⟩
  · intro tc chunks strategy text c hmem
    rw [enrich_metadata] at hmem
    exact enrichGo_token_present tc strategy chunks.length 0 [] chunks c hmem
  · intro tc chunks strategy text i
    refine ⟨gen tc chunks strategy text _ _ (by decide) i,
      gen tc chunks strategy text _ _ (by decide) i,
      gen tc chunks strategy text _ _ (by decide) i, fun lvl => ?_⟩
    have hc : (["token_count"].contains ("heading_" ++ toString lvl)) = false :=
      include_tc_heading lvl
    exact gen tc chunks strategy text _ _ hc i

theorem enrich_schema_filtering_witness :
    ((⟨"# A\nx", [("position_in_document", JVal.int 9), ("token_count", JVal.int 7)]⟩ :
        Chunk) ∈
      enrich_metadata (fun _ => 7)
        [⟨"# A\nx", [("position_in_document", JVal.int 9)]⟩] "semantic" "doc"
        (some ["token_count"]) ∧
      (["token_count"] : List String).contains "section_path" = false) ∧
    ((dictGet ([("position_in_document", JVal.int 9), ("token_count", JVal.int 7)] :
        Metadata) "token_count").isSome = true ∧
      dictGet ((enrich_metadata (fun _ => 7)
          [⟨"# A\nx", [("position_in_document", JVal.int 9)]⟩] "semantic" "doc"
          (some ["token_count"])).getD 0 ⟨"", []⟩).metadata "section_path" =
        dictGet (([⟨"# A\nx", [("position_in_document", JVal.int 9)]⟩] :
          List Chunk).getD 0 ⟨"", []⟩).metadata "section_path") := by
  have hmem : (⟨"# A\nx", [("position_in_document", JVal.int 9),
      ("token_count", JVal.int 7)]⟩ : Chunk) ∈
      enrich_metadata (fun _ => 7)
        [⟨"# A\nx", [("position_in_document", JVal.int 9)]⟩] "semantic" "doc"
        (some ["token_count"]) := by decide
  exact ⟨⟨hmem, by decide⟩,
    enrich_schema_filtering.1 (fun _ => 7) _ "semantic" "doc" _ hmem,
    enrich_schema_filtering.2.2 (fun _ => 7)
      [⟨"# A\nx", [("position_in_document", JVal.int 9)]⟩] "semantic" "doc"
      ["token_count"] "section_path" (by decide) 0⟩

/-! Complexity scoring (metadata.py:194-289). -/

/-- A sentence delimiter of `re.split(r'[.!?]+', text)`. -/
def isSentenceDelim (c : Char) : Bool := c = '.' || c = '!' || c = '?'

/-- Right fold for `re.split(r'[.!?]+', text)`: the flag records whether the
character just to the right was a delimiter (so a run adds only one
boundary). -/
def ssGo : List Char → Bool × List (List Char)
  | [] => (false, [[]])
  | c :: r =>
      let p := ssGo r
      if isSentenceDelim c then
        if p.1 then (true, p.2) else (true, [] :: p.2)
      else
        (false, match p.2 with
          | s :: ss => (c :: s) :: ss
          | [] => [[c]])

/-- `re.split(r'[.!?]+', text)`: split at maximal delimiter runs, keeping
empty pieces at the ends. -/
def sentSplit (l : List Char) : List (List Char) := (ssGo l).2

/-- `len([s for s in sentences if s.strip()])`: the non-blank sentences. -/
def sentence_count (text : String) : ℕ :=
  (sentSplit text.toList).countP (fun l => decide (stripChars l ≠ []))

/-- Python `text.split()`: whitespace-run splitting with no empty words. -/
def pyWords (text : String) : List String :=
  ((text.toList.splitOnP Char.isWhitespace).filter (fun w => decide (w ≠ []))).map
    String.mk

/-- `len(text.split())`. -/
def word_count (text : String) : ℕ := (pyWords text).length

/-- `len(set(word.lower() for word in words))`. -/
def unique_word_count (text : String) : ℕ :=
  ((pyWords text).map String.toLower).dedup.length

/-- A regex `\w` character. -/
def isWordChar (c : Char) : Bool := c.isAlphanum || c = '_'

/-- The backtick character (code point 96). -/
def isTick (c : Char) : Bool := c.toNat = 96

/-- Whether the next two characters are both backticks. -/
def ticksAt2 : List Char → Bool
  | b :: c :: _ => isTick b && isTick c
  | _ => false

/-- The non-greedy `(.*?)` up to the closing fence of a code block: the text
before the first triple backtick, and the remainder after it. -/
def findCodeClose : List Char → Option (List Char × List Char)
  | [] => none
  | a :: rest =>
      if isTick a ∧ ticksAt2 rest then some ([], rest.drop 2)
      else
        match findCodeClose rest with
        | some (body, r2) => some (a :: body, r2)
        | none => none

theorem findCodeClose_length :
    ∀ (l body r2 : List Char), findCodeClose l = some (body, r2) →
      r2.length < l.length := by
  intro l
  induction l with
  | nil => intro body r2 h; cases h
  | cons a rest ih =>
      intro body r2 h
      rw [findCodeClose] at h
      split at h
      · injection h with h2
        have he2 : rest.drop 2 = r2 := congrArg Prod.snd h2
        subst he2
        simp [List.length_drop]
        omega
      · cases h2 : findCodeClose rest with
        | none => rw [h2] at h; cases h
        | some p =>
            rw [h2] at h
            injection h with h3
            have hr : p.2 = r2 := congrArg Prod.snd h3
            have hlt := ih p.1 p.2 (by rw [h2])
            rw [← hr]
            simp
            omega

/-- The body after the fence header is shorter than the scanned list. -/
theorem fence_body_lt (L : List Char) (nl : Char) (body : List Char)
    (h : (List.drop 2 L).dropWhile isWordChar = nl :: body) :
    body.length < L.length := by
  have h1 := (List.dropWhile_sublist isWordChar (l := List.drop 2 L)).length_le
  rw [h] at h1
  have h2 : (List.drop 2 L).length ≤ L.length := by
    simp [List.length_drop]
  simp at h1
  omega

/-- `re.findall(r'```(\w+)?\n(.*?)```', text, re.DOTALL)` as consumed by
`extract_code_blocks` (metadata.py:210-234): scan for an opening fence, an
optional word-character language tag, a newline, then the non-greedy body up
to the closing fence; on a match emit (language or `"text"`, stripped code)
and continue after the closing fence, otherwise advance one character. -/
def fcbGo : List Char → List (String × String)
  | [] => []
  | a :: rest =>
      if isTick a ∧ ticksAt2 rest then
        match hdrop : (rest.drop 2).dropWhile isWordChar with
        | nl :: body =>
            if nl = '\n' then
              match hclose : findCodeClose body with
              | some (code, rest2) =>
                  ((if (rest.drop 2).takeWhile isWordChar = [] then "text"
                    else String.mk ((rest.drop 2).takeWhile isWordChar)),
                    String.mk (stripChars code)) :: fcbGo rest2
              | none => fcbGo rest
            else fcbGo rest
        | [] => fcbGo rest
      else fcbGo rest
  termination_by l => l.length
  decreasing_by
    · have h1 := findCodeClose_length _ _ _ hclose
      have h2 := fence_body_lt _ _ _ hdrop
      simp
      omega
    · simp
    · simp
    · simp
    · simp

/-- `extract_code_blocks` (metadata.py:210-234). -/
def extract_code_blocks (text : String) : List (String × String) :=
  fcbGo text.toList

/-- A `$` before the end of the line. -/
def findDollarClose : List Char → Bool
  | [] => false
  | c :: r => if c = '\n' then false else if c = '$' then true else findDollarClose r

/-- `re.search(r'[$].*?[$]', text)` (metadata.py:281): two dollar signs with
no newline between them. -/
def hasMathGo : List Char → Bool
  | [] => false
  | c :: r => if c = '$' then findDollarClose r || hasMathGo r else hasMathGo r

/-- A `)` before the end of the line. -/
def findParenClose : List Char → Bool
  | [] => false
  | c :: r => if c = '\n' then false else if c = ')' then true else findParenClose r

/-- After a `[`: a `]` immediately followed by `(`, with a later `)`, all
before any newline. -/
def afterBracketGo : List Char → Bool
  | [] => false
  | c :: r =>
      if c = '\n' then false
      else if c = ']' then
        (match r with
          | p :: r2 => p = '(' && findParenClose r2
          | [] => false) || afterBracketGo r
      else afterBracketGo r

/-- `re.search(r'\[.*?\]\(.*?\)', text)` (metadata.py:282): a markdown link
shape on a single line. -/
def hasLinksGo : List Char → Bool
  | [] => false
  | c :: r => if c = '[' then afterBracketGo r || hasLinksGo r else hasLinksGo r

/-- Python 3 `round` to an integer: nearest, ties to even. -/
def roundHalfToEven (x : ℚ) : ℤ :=
  if x - ⌊x⌋ < 1 / 2 then ⌊x⌋
  else if (1 : ℚ) / 2 < x - ⌊x⌋ then ⌊x⌋ + 1
  else if ⌊x⌋ % 2 = 0 then ⌊x⌋ else ⌊x⌋ + 1

/-- `round(x, 2)`. -/
def pythonRound2 (x : ℚ) : ℚ := (roundHalfToEven (x * 100) : ℚ) / 100

/-- `length_score = min(avg_sentence_length / 30, 1.0)` (metadata.py:272-273). -/
def length_score (text : String) : ℚ :=
  min (((word_count text : ℚ) / (sentence_count text : ℚ)) / 30) 1

/-- `diversity_score = unique_words / word_count` (metadata.py:276-277). -/
def diversity_score (text : String) : ℚ :=
  (unique_word_count text : ℚ) / (word_count text : ℚ)

/-- `technical_score = min(code_blocks*0.2 + has_math*0.3 + has_links*0.1,
0.5)` (metadata.py:280-284). -/
def technical_score (text : String) : ℚ :=
  min (((extract_code_blocks text).length : ℚ) * 0.2 +
    (if hasMathGo text.toList then (0.3 : ℚ) else 0) +
    (if hasLinksGo text.toList then (0.1 : ℚ) else 0)) 0.5

/-- `calculate_complexity_score` (metadata.py:237-289). -/
def calculate_complexity_score (text : String) : ℚ :=
  if text = "" then 0
  else if sentence_count text = 0 then 0
  else if word_count text = 0 then 0
  else
    pythonRound2 (length_score text * 0.3 + diversity_score text * 0.4 +
      technical_score text * 0.3)

theorem roundHalfToEven_bounds (x : ℚ) :
    ⌊x⌋ ≤ roundHalfToEven x ∧ roundHalfToEven x ≤ ⌊x⌋ + 1 := by
  rw [roundHalfToEven]
  split_ifs <;> omega

theorem pythonRound2_bounds (x : ℚ) (h0 : 0 ≤ x) (h1 : x ≤ 17 / 20) :
    0 ≤ pythonRound2 x ∧ pythonRound2 x ≤ 1 := by
  obtain ⟨hl, hu⟩ := roundHalfToEven_bounds (x * 100)
  have hf0 : (0 : ℤ) ≤ ⌊x * 100⌋ := Int.floor_nonneg.mpr (by positivity)
  have hfu : (⌊x * 100⌋ : ℚ) ≤ x * 100 := Int.floor_le _
  have hlq : (⌊x * 100⌋ : ℚ) ≤ (roundHalfToEven (x * 100) : ℚ) := by exact_mod_cast hl
  have huq : (roundHalfToEven (x * 100) : ℚ) ≤ (⌊x * 100⌋ : ℚ) + 1 := by
    exact_mod_cast hu
  have hf0q : (0 : ℚ) ≤ (⌊x * 100⌋ : ℚ) := by exact_mod_cast hf0
  constructor
  · rw [pythonRound2]
    apply div_nonneg _ (by norm_num)
    linarith
  · rw [pythonRound2, div_le_one (by norm_num)]
    linarith

theorem length_score_bounds (text : String) :
    0 ≤ length_score text ∧ length_score text ≤ 1 :=
  ⟨le_min (by positivity) (by norm_num), min_le_right _ _⟩

theorem diversity_score_bounds (text : String) (hw : word_count text ≠ 0) :
    0 ≤ diversity_score text ∧ diversity_score text ≤ 1 := by
  have hpos : (0 : ℚ) < (word_count text : ℚ) := by
    exact_mod_cast Nat.pos_of_ne_zero hw
  constructor
  · rw [diversity_score]
    positivity
  · rw [diversity_score, div_le_one hpos]
    have hsub := (List.dedup_sublist ((pyWords text).map String.toLower)).length_le
    rw [List.length_map] at hsub
    exact_mod_cast hsub

theorem technical_score_bounds (text : String) :
    0 ≤ technical_score text ∧ technical_score text ≤ 1 / 2 := by
  have h1 : (0 : ℚ) ≤ ((extract_code_blocks text).length : ℚ) * 0.2 := by positivity
  have h2 : (0 : ℚ) ≤ (if hasMathGo text.toList then (0.3 : ℚ) else 0) := by
    split <;> norm_num
  have h3 : (0 : ℚ) ≤ (if hasLinksGo text.toList then (0.1 : ℚ) else 0) := by
    split <;> norm_num
  refine ⟨?_, ?_⟩ <;> rw [technical_score]
  · exact le_min (by linarith) (by norm_num)
  · calc min (((extract_code_blocks text).length : ℚ) * 0.2 +
        (if hasMathGo text.toList then (0.3 : ℚ) else 0) +
        (if hasLinksGo text.toList then (0.1 : ℚ) else 0)) 0.5 ≤ 0.5 :=
        min_le_right _ _
      _ ≤ 1 / 2 := by norm_num

/-- C9: Complexity score bounds. `calculate_complexity_score` returns `0` on
the empty text and on any text with no sentences or no words; the result
always lies in `[0, 1]`; and on every other text it is the weighted blend
`0.3 × length score + 0.4 × lexical diversity + 0.3 × technical density
(capped at 0.5)`, rounded to two decimal places. -/
theorem complexity_score_properties :
    calculate_complexity_score "" = 0 ∧
    (∀ text : String, sentence_count text = 0 →
      calculate_complexity_score text = 0) ∧
    (∀ text : String, word_count text = 0 → calculate_complexity_score text = 0) ∧
    (∀ text : String, 0 ≤ calculate_complexity_score text ∧
      calculate_complexity_score text ≤ 1) ∧
    (∀ text : String, text ≠ "" → sentence_count text ≠ 0 → word_count text ≠ 0 →
      (calculate_complexity_score text =
        pythonRound2 (0.3 * length_score text + 0.4 * diversity_score text +
          0.3 * technical_score text) ∧
        technical_score text ≤ 1 / 2)) := by
  refine ⟨rfl, ?_, ?_, ?_, ?_⟩
  · intro text h
    rw [calculate_complexity_score]
    split_ifs <;> simp_all
  · intro text h
    rw [calculate_complexity_score]
    split_ifs <;> simp_all
  · intro text
    rw [calculate_complexity_score]
    split_ifs with e1 e2 e3
    · norm_num
    · norm_num
    · norm_num
    · obtain ⟨l0, l1⟩ := length_score_bounds text
      obtain ⟨d0, d1⟩ := diversity_score_bounds text e3
      obtain ⟨t0, t1⟩ := technical_score_bounds text
      exact pythonRound2_bounds _ (by linarith) (by linarith)
  · intro text h1 h2 h3
    rw [calculate_complexity_score, if_neg h1, if_neg h2, if_neg h3]
    exact ⟨congrArg pythonRound2 (by ring), (technical_score_bounds text).2⟩

theorem complexity_score_properties_witness :
    (("x" : String) ≠ "" ∧ sentence_count "x" ≠ 0 ∧ word_count "x" ≠ 0 ∧
      sentence_count "!!!" = 0 ∧ word_count "   " = 0) ∧
    (0 ≤ calculate_complexity_score "x" ∧ calculate_complexity_score "x" ≤ 1) ∧
    calculate_complexity_score "x" =
      pythonRound2 (0.3 * length_score "x" + 0.4 * diversity_score "x" +
        0.3 * technical_score "x") ∧
    calculate_complexity_score "!!!" = 0 ∧
    calculate_complexity_score "   " = 0 :=
  ⟨⟨by decide, by decide, by decide, by decide, by decide⟩,
    complexity_score_properties.2.2.2.1 "x",
    (complexity_score_properties.2.2.2.2 "x" (by decide) (by decide) (by decide)).1,
    complexity_score_properties.2.1 "!!!" (by decide),
    complexity_score_properties.2.2.1 "   " (by decide)⟩
